import Mathlib

/-!
Verification of the computational_essays repository
(src/packages/qgr_data_processing.py and src/packages/youtube_data_processing.py).

The definitions below are a shallow embedding of the Python source.  Strings are
modelled as Lean strings (lists of characters); each re.sub pass of the source
is implemented directly with Python regex semantics (leftmost match, alternation
tried in order, greedy quantifiers); fallible code returns Except; the harvest
loop is explicit state passing over a World record.
-/

namespace QGR

/-- Python regex whitespace class for the characters exercised here: the six
ASCII whitespace characters matched by re \s (Python additionally matches some
Unicode whitespace, which none of the source patterns rely on). -/
def pyIsSpace (c : Char) : Bool :=
  c = ' ' || c = '\t' || c = '\n' || c = '\r' || c = '\x0b' || c = '\x0c'

/-- ASCII digit, as matched by re \d on the characters exercised here. -/
def pyIsDigit (c : Char) : Bool :=
  '0' ≤ c && c ≤ '9'

/-- Character class kept by the pass re.sub of [^a-zA-Z0-9 \n\.] in
clean_description. -/
def isAllowedChar (c : Char) : Bool :=
  ('a' ≤ c && c ≤ 'z') || ('A' ≤ c && c ≤ 'Z') || pyIsDigit c
    || c = ' ' || c = '\n' || c = '.'

/-- Length of the maximal run of non-whitespace characters at the head of the
list (the greedy match of \S+ or \S calculus at the current position). -/
def nonSpaceRun (l : List Char) : Nat :=
  (l.takeWhile (fun c => !pyIsSpace c)).length

/-- Length of the maximal run of digits at the head of the list (greedy \d+). -/
def digitRun (l : List Char) : Nat :=
  (l.takeWhile pyIsDigit).length

/-- Regex http\S+|www.\S+ tried at the current position: first the http branch,
then the www branch where the regex dot matches any single non-newline
character; \S+ is greedy and must be nonempty.  Returns the match length. -/
def urlMatchLen : List Char → Option Nat
  | 'h' :: 't' :: 't' :: 'p' :: rest =>
      if 0 < nonSpaceRun rest then some (4 + nonSpaceRun rest) else none
  | 'w' :: 'w' :: 'w' :: d :: rest =>
      if d ≠ '\n' && 0 < nonSpaceRun rest then some (4 + nonSpaceRun rest)
      else none
  | _ => none

/-- Regex \d+:\d+:\d+|\d+:\d+ tried at the current position.  The three-part
branch is tried first; the digit runs are greedy and, since a digit can never
match a colon, the greedy runs are exact. -/
def tsMatchLen (l : List Char) : Option Nat :=
  let d1 := digitRun l
  if d1 = 0 then none
  else
    match l.drop d1 with
    | ':' :: r2 =>
        let d2 := digitRun r2
        if d2 = 0 then none
        else
          match r2.drop d2 with
          | ':' :: r3 =>
              let d3 := digitRun r3
              if d3 = 0 then some (d1 + 1 + d2)
              else some (d1 + 1 + d2 + 1 + d3)
          | _ => some (d1 + 1 + d2)
    | _ => none

/-- One re.sub scanning pass deleting every match of http\S+|www.\S+:
at each position try the pattern; on a match skip it, otherwise keep one
character and move on.  The fuel argument is initialised with the length of the
list; every step consumes at least one character. -/
def subUrls : Nat → List Char → List Char
  | 0, l => l
  | _ + 1, [] => []
  | fuel + 1, c :: rest =>
      match urlMatchLen (c :: rest) with
      | some m => subUrls fuel ((c :: rest).drop m)
      | none => c :: subUrls fuel rest

/-- One re.sub scanning pass deleting every match of \d+:\d+:\d+|\d+:\d+. -/
def subTs : Nat → List Char → List Char
  | 0, l => l
  | _ + 1, [] => []
  | fuel + 1, c :: rest =>
      match tsMatchLen (c :: rest) with
      | some m => subTs fuel ((c :: rest).drop m)
      | none => c :: subTs fuel rest

/-- One re.sub scanning pass deleting every match of \S{30,}: a maximal
non-space run of length at least 30 is removed whole (greedy), shorter runs are
kept. -/
def subLong : Nat → List Char → List Char
  | 0, l => l
  | _ + 1, [] => []
  | fuel + 1, c :: rest =>
      if pyIsSpace c then c :: subLong fuel rest
      else
        if 30 ≤ nonSpaceRun (c :: rest) then
          subLong fuel ((c :: rest).drop (nonSpaceRun (c :: rest)))
        else c :: subLong fuel rest

/-- re.sub of newline-plus with a single newline: a run of newlines collapses
to its last newline. -/
def collapseNl : List Char → List Char
  | [] => []
  | c :: rest =>
      if c = '\n' && (match rest with | '\n' :: _ => true | _ => false) then
        collapseNl rest
      else c :: collapseNl rest

/-- re.sub of space-plus with a single space: a run of spaces collapses to its
last space. -/
def collapseSp : List Char → List Char
  | [] => []
  | c :: rest =>
      if c = ' ' && (match rest with | ' ' :: _ => true | _ => false) then
        collapseSp rest
      else c :: collapseSp rest

/-- clean_description from qgr_data_processing.py.  pd.isnull is modelled with
an Option argument; the six re.sub passes are applied in source order. -/
def clean_description (description : Option String) : String :=
  match description with
  | none => ""
  | some s =>
      let l0 := s.data
      let l1 := subUrls l0.length l0
      let l2 := subTs l1.length l1
      let l3 := subLong l2.length l2
      let l4 := l3.filter isAllowedChar
      let l5 := collapseNl l4
      let l6 := collapseSp l5
      String.mk l6

/-- clean_latex from qgr_data_processing.py.  There is no null guard in the
source: re.sub applied to None raises TypeError, modelled as an error value.
The two character-class deletions are filters; the final pass collapses space
runs. -/
def clean_latex (latex_content : Option String) : Except String String :=
  match latex_content with
  | none => Except.error "TypeError"
  | some s =>
      let l1 := s.data.filter
        (fun c => !(0x2022 ≤ c.toNat && c.toNat ≤ 0x5424))
      let l2 := l1.filter (fun c => c.toNat ≤ 0x7F)
      Except.ok (String.mk (collapseSp l2))

/-- Scanner: does some position of the list start a match of
http\S+|www.\S+ ? -/
def hasUrlToken : List Char → Bool
  | [] => false
  | c :: rest => (urlMatchLen (c :: rest)).isSome || hasUrlToken rest

/-- Scanner: does some position of the list start a match of
\d+:\d+:\d+|\d+:\d+ ? -/
def hasTsToken : List Char → Bool
  | [] => false
  | c :: rest => (tsMatchLen (c :: rest)).isSome || hasTsToken rest

/-- Scanner: does the list contain a run of at least 30 consecutive non-space
characters? -/
def hasLongRun : List Char → Bool
  | [] => false
  | c :: rest =>
      if 30 ≤ nonSpaceRun (c :: rest) then true else hasLongRun rest

/-- An input document as consumed by process_and_insert_documents: a dict whose
string-valued keys may be absent (entry.get returns None). -/
structure DocEntry where
  title : Option String := none
  date : Option String := none
  authors : Option String := none
  abstract : Option String := none
  keywords : Option String := none
  category : Option String := none

/-- The idiom entry.get(key, "") or "Unknown": an absent key or an empty (or
null) value is replaced by the sentinel "Unknown". -/
def orUnknown : Option String → String
  | none => "Unknown"
  | some s => if s = "" then "Unknown" else s

/-- One metadata field of process_and_insert_documents: sentinel substitution,
then clean_description only when the length exceeds cleanBound, then the Python
slice [:keepLen]. -/
def truncField (x : Option String) (cleanBound keepLen : Nat) : String :=
  let v := orUnknown x
  let v := if cleanBound < v.length then clean_description (some v) else v
  String.mk (v.data.take keepLen)

/-- The string fields of one IndexRecord assembled by
process_and_insert_documents. -/
structure RecordFields where
  date : String
  keywords : String
  authors : String
  title : String
  abstract : String
  category : String

/-- The metadata-truncation part of process_and_insert_documents
(qgr_data_processing.py lines 124-152): thresholds and slice bounds exactly as
in the source, including the [:1004] slice applied to keywords. -/
def process_and_insert_documents_fields (entry : DocEntry) : RecordFields :=
  { date := truncField entry.date 1000 250
    keywords := truncField entry.keywords 1000 1004
    authors := truncField entry.authors 1000 1000
    title := truncField entry.title 1000 900
    abstract := truncField entry.abstract 4000 4000
    category := truncField entry.category 1000 250 }

/-- One search hit as consumed by group_by_document_id: the output fields of
the index plus a similarity score.  The score is a float in the source; since
the grouping code only copies scores and never computes with them, the score
type is an arbitrary type parameter. -/
structure Hit (α : Type) where
  documentId : String
  title : String
  date : String
  authors : String
  abstract : String
  keywords : String
  category : String
  content : String
  score : α

/-- One group of group_by_document_id: metadata of a document plus the ordered
chunk contents and the retained score. -/
structure Group (α : Type) where
  title : String
  date : String
  authors : String
  abstract : String
  keywords : String
  category : String
  contents : List String
  score : α

/-- Ordered association list lookup: Python dict membership and item access. -/
def alGet {β : Type} : List (String × β) → String → Option β
  | [], _ => none
  | p :: rest, k => if p.1 = k then some p.2 else alGet rest k

/-- Ordered association list update: Python dict assignment (an existing key
keeps its position, a new key is appended at the end). -/
def alSet {β : Type} : List (String × β) → String → β → List (String × β)
  | [], k, v => [(k, v)]
  | p :: rest, k, v => if p.1 = k then (k, v) :: rest else p :: alSet rest k v

/-- Appending one chunk text to the contents of a group, all other fields
kept. -/
def appendContent {α : Type} (c : String) (g : Group α) : Group α :=
  { g with contents := g.contents ++ [c] }

/-- The group seeded by the first hit of a documentId. -/
def seedGroup {α : Type} (hit : Hit α) : Group α :=
  { title := hit.title, date := hit.date, authors := hit.authors
    abstract := hit.abstract, keywords := hit.keywords
    category := hit.category, contents := [hit.content], score := hit.score }

/-- One iteration of the loop body of group_by_document_id: an unseen
documentId appends a new group seeded with the metadata, a singleton contents
list and the score of this hit; a seen documentId only appends to the
contents list of the existing group. -/
def groupStep {α : Type} (acc : List (String × Group α)) (hit : Hit α) :
    List (String × Group α) :=
  match alGet acc hit.documentId with
  | none => acc ++ [(hit.documentId, seedGroup hit)]
  | some _ =>
      acc.map (fun p =>
        if p.1 = hit.documentId then (p.1, appendContent hit.content p.2)
        else p)

/-- group_by_document_id from qgr_data_processing.py: fold the loop body over
the hits in order; the Python dict is an insertion-ordered association list. -/
def group_by_document_id {α : Type} (results : List (Hit α)) :
    List (String × Group α) :=
  results.foldl groupStep []

/-- Modelled from the spec: the chunker of splitText delegates to the external
langchain LatexTextSplitter (chunk size 512, overlap 20), whose implementation
is not part of this repository.  Following section 4.2 of the spec, the
chunker produces overlapping windows: each window has at most 512 characters
and consecutive windows share 20 characters of context, so the stride is
512 - 20 = 492 characters. -/
def chunkWindows (s : List Char) : List (List Char) :=
  if _h : s.length ≤ 512 then [s]
  else s.take 512 :: chunkWindows (s.drop 492)
termination_by s.length
decreasing_by
  simp only [List.length_drop]
  omega

/-- Concatenation of the non-overlapping portions of a chunk sequence: the
first chunk whole, then each later chunk with its 20 leading overlap
characters removed. -/
def reconstructChunks : List (List Char) → List Char
  | [] => []
  | c :: cs => c ++ (cs.map (fun d => d.drop 20)).flatten

/-- The parsed contents of one source .json document file; absent keys are
None. -/
structure JsonDoc where
  title : Option String := none
  date : Option String := none
  authors : Option (List String) := none
  abstract : Option String := none
  latex_doc : Option String := none

/-- One directory visited by os.walk: its path, the path relative to the
walked root (os.path.relpath, which is "." for the root itself), its base
name, and its directly contained files with parsed contents.  Path separators
are "/". -/
structure DirEntry where
  root : String
  relPath : String
  baseName : String
  files : List (String × JsonDoc)

/-- The category string computed for one directory: path separators replaced
by underscores, and the base name of the directory when the relative path is
".". -/
def categoryOf (e : DirEntry) : String :=
  let category := String.mk (e.relPath.data.map (fun c => if c = '/' then '_' else c))
  if category = "." then e.baseName else category

/-- The entry dict assembled by process_file_from_folder from one parsed file:
authors joined with ", ", content taken from the latex_doc key. -/
structure FolderEntry where
  title : Option String
  date : Option String
  authors : String
  abstract : Option String
  content : Option String
  category : Option String

def mkFolderEntry (d : JsonDoc) (category : String) : FolderEntry :=
  { title := d.title, date := d.date
    authors := String.intercalate ", " (d.authors.getD [])
    abstract := d.abstract, content := d.latex_doc
    category := some category }

/-- The inner loop of process_file_from_folder over the files of one
directory: the first file whose name ends in .json is selected. -/
def firstJsonIn : List (String × JsonDoc) → Option (String × JsonDoc)
  | [] => none
  | f :: rest => if f.1.endsWith ".json" then some f else firstJsonIn rest

/-- process_file_from_folder from qgr_data_processing.py: walk the directories
in order; in the first directory containing a .json file, parse that file and
return its entry together with its path; return (None, None) when the walk
contains no .json file. -/
def process_file_from_folder : List DirEntry → Option FolderEntry × Option String
  | [] => (none, none)
  | e :: rest =>
      match firstJsonIn e.files with
      | some f => (some (mkFolderEntry f.2 (categoryOf e)),
                   some (e.root ++ "/" ++ f.1))
      | none => process_file_from_folder rest

/-- Specification-side description of the walk outcome: the first directory
entry with a .json file, together with that file. -/
def findFirstJson (walk : List DirEntry) : Option (DirEntry × String × JsonDoc) :=
  walk.findSome? (fun e => (firstJsonIn e.files).map (fun f => (e, f.1, f.2)))

end QGR

namespace YT

open QGR (alGet alSet)

/-- The error envelope of a YouTube Data API response: data has key error with
a code and a message. -/
structure ErrInfo where
  code : Nat
  message : String
deriving DecidableEq

/-- A raw API payload as returned by get_channel_statistics and
get_channel_video: an optional error envelope plus the rest of the JSON body,
carried along uninterpreted. -/
structure YtData where
  error : Option ErrInfo := none
  body : String := ""
deriving DecidableEq

/-- One item of a search page: id.kind and id.videoId. -/
structure YtItem where
  kind : String
  videoId : String
deriving DecidableEq

/-- One response page of the paginated video search endpoint: optional error
envelope, optional items key, optional nextPageToken key. -/
structure ListPage where
  error : Option ErrInfo := none
  items : Option (List YtItem) := none
  nextPageToken : Option String := none
deriving DecidableEq

/-- One record of a per-channel video list file: a video id and its
fetched_video flag. -/
structure VideoEntry where
  VideoID : String
  fetched_video : Bool
deriving DecidableEq

/-- One record of the channel roster file. -/
structure ChannelInfo where
  channelID : String
  fetched_videos : Bool
  fetched_statistics : Bool
deriving DecidableEq

/-- A cell of the wide harvest dataframe, keyed by channel id: the yt_api dict
holding the accumulated video payloads and the statistics payload. -/
structure Cell where
  videos : List YtData
  statistics : YtData
deriving DecidableEq

/-- Python substring containment: pat in s. -/
def containsSub (pat : List Char) : List Char → Bool
  | [] => pat.isPrefixOf []
  | c :: rest => pat.isPrefixOf (c :: rest) || containsSub pat rest

/-- The quota check of the source on an error envelope: HTTP code 403 and the
word quota contained in the message. -/
def isQuotaError : Option ErrInfo → Bool
  | some e => e.code == 403 && containsSub "quota".data e.message.data
  | none => false

/-- The remote API, modelled as deterministic response functions: statistics
by channel id, the successive pages of the video search by channel id, and the
video detail by video id. -/
structure Api where
  stats : String → YtData
  listPages : String → List ListPage
  video : String → YtData

/-- One remote call, recorded in the run trace. -/
inductive ApiCall where
  | stats (channelId : String)
  | listPage (channelId : String)
  | video (videoId : String)
deriving DecidableEq

/-- The persisted state the harvest loop works on.  Every in-place mutation in
the source is immediately followed by the corresponding file write and no
exception can occur between the two, so the in-memory dataframe, roster and
video lists never diverge from their files at an abort point; each component is
therefore modelled by a single field standing for both. -/
structure World where
  df : List (String × Cell)
  roster : List ChannelInfo
  videoFiles : List (String × List VideoEntry)
deriving DecidableEq

/-- How a run of process_channels ends: normal completion, the quota
exception raised by get_channel_videos_list or get_channel_video, the
TypeError raised by write_channel_video_list_to_file when handed None, the
KeyError of df.at on an absent column, or an exhausted response script (the
remote never answered a page request; unreachable for well-formed scripts). -/
inductive Outcome where
  | ok
  | quotaExceeded
  | typeError
  | keyError
  | noResponse
deriving DecidableEq

/-- What get_channel_videos_list produces: the quota exception, a missing
response, the None return of the no-items branch, or the collected video ids. -/
inductive ListResult where
  | quota
  | noResponse
  | noItems
  | ok (ids : List String)
deriving DecidableEq

/-- The id extraction of one page: keep items whose id.kind is
youtube#video. -/
def extractIds (its : List YtItem) : List String :=
  (its.filter (fun v => v.kind == "youtube#video")).map (fun v => v.videoId)

/-- The while loop of get_channel_videos_list over the successive response
pages: check the quota error, collect ids when items is present and follow
nextPageToken, return None (noItems) when items is absent.  Returns the trace
of page requests together with the result. -/
def fetchPages (channelId : String) :
    List ListPage → List String → List ApiCall × ListResult
  | [], _ => ([], ListResult.noResponse)
  | p :: rest, acc =>
      if isQuotaError p.error then ([ApiCall.listPage channelId], ListResult.quota)
      else
        match p.items with
        | some its =>
            let acc' := acc ++ extractIds its
            match p.nextPageToken with
            | some _ =>
                let r := fetchPages channelId rest acc'
                (ApiCall.listPage channelId :: r.1, r.2)
            | none => ([ApiCall.listPage channelId], ListResult.ok acc')
        | none => ([ApiCall.listPage channelId], ListResult.noItems)

/-- get_channel_videos_list from youtube_data_processing.py, driven by the
response script of the api. -/
def get_channel_videos_list (api : Api) (channelId : String) :
    List ApiCall × ListResult :=
  fetchPages channelId (api.listPages channelId) []

/-- write_channel_video_list_to_file from youtube_data_processing.py: every id
gets a record with fetched_video False. -/
def write_channel_video_list_to_file (ids : List String) : List VideoEntry :=
  ids.map (fun i => { VideoID := i, fetched_video := false })

/-- The result of the per-channel video loop: the updated dataframe, the video
list as last persisted, the trace of detail calls, and the exception that
aborted the loop, if any. -/
structure VideoLoopResult where
  df : List (String × Cell)
  vids : List VideoEntry
  trace : List ApiCall
  halt : Option Outcome
deriving DecidableEq

/-- The for loop over channel_videos in process_channels: a video whose flag
is already true is skipped; otherwise get_channel_video is called (raising on
a quota error), the payload is appended to the videos of the channel cell, the
dataframe is persisted, the flag is set and the video list is persisted.  The
source checks video_data is not None, but get_channel_video never returns
None (its return None sits after a raise), so the check always succeeds and
all_videos_feched stays True. -/
def processVideos (api : Api) (channelId : String) :
    List (String × Cell) → List VideoEntry → VideoLoopResult
  | df, [] => { df := df, vids := [], trace := [], halt := none }
  | df, e :: rest =>
      if e.fetched_video then
        let r := processVideos api channelId df rest
        { r with vids := e :: r.vids }
      else
        let d := api.video e.VideoID
        if isQuotaError d.error then
          { df := df, vids := e :: rest
            trace := [ApiCall.video e.VideoID], halt := some Outcome.quotaExceeded }
        else
          match alGet df channelId with
          | none =>
              { df := df, vids := e :: rest
                trace := [ApiCall.video e.VideoID], halt := some Outcome.keyError }
          | some cell =>
              let df' := alSet df channelId
                { cell with videos := cell.videos ++ [d] }
              let r := processVideos api channelId df' rest
              { r with
                vids := { e with fetched_video := true } :: r.vids
                trace := ApiCall.video e.VideoID :: r.trace }

/-- The result of one iteration of the channel loop. -/
structure StepResult where
  world : World
  trace : List ApiCall
  halt : Option Outcome
deriving DecidableEq

/-- The video part of one channel iteration, after the video list vlist has
been obtained: run the per-video loop, persist dataframe and video list, and,
when the loop was not aborted, set the fetched_videos flag of the channel
(all_videos_feched is always True at this point, see processVideos) and
persist the roster. -/
def stepVideos (api : Api) (w : World) (idx : Nat) (ch1 : ChannelInfo)
    (tr : List ApiCall) (vlist : List VideoEntry) : StepResult :=
  let r := processVideos api ch1.channelID w.df vlist
  let w' : World :=
    { w with df := r.df
             videoFiles := alSet w.videoFiles ch1.channelID r.vids }
  match r.halt with
  | some o => { world := w', trace := tr ++ r.trace, halt := some o }
  | none =>
      let wSet : World :=
        { w' with roster := w'.roster.set idx { ch1 with fetched_videos := true } }
      { world := wSet, trace := tr ++ r.trace, halt := none }

/-- The statistics branch of one channel iteration of process_channels: when
the flag is not yet set, fetch the statistics, reset the channel cell to empty
videos plus the payload, set the flag in the roster, persist; otherwise do
nothing. -/
def statsPhase (api : Api) (w : World) (idx : Nat) (ch : ChannelInfo) :
    World × List ApiCall :=
  if ch.fetched_statistics then (w, [])
  else
    let s := api.stats ch.channelID
    let df' := alSet w.df ch.channelID { videos := [], statistics := s }
    let roster' := w.roster.set idx { ch with fetched_statistics := true }
    ({ w with df := df', roster := roster' }, [ApiCall.stats ch.channelID])

/-- The videos branch of one channel iteration of process_channels: skipped
entirely when the fetched_videos flag is already true; otherwise ensure the
video list file exists (fetching and writing it when absent, with the quota,
no-response and TypeError aborts of that path), then run the per-video loop. -/
def videoPhase (api : Api) (w : World) (idx : Nat) (ch1 : ChannelInfo)
    (tr : List ApiCall) : StepResult :=
  if ch1.fetched_videos then { world := w, trace := tr, halt := none }
  else
    match alGet w.videoFiles ch1.channelID with
    | none =>
        let lr := get_channel_videos_list api ch1.channelID
        match lr.2 with
        | ListResult.quota =>
            { world := w, trace := tr ++ lr.1, halt := some Outcome.quotaExceeded }
        | ListResult.noResponse =>
            { world := w, trace := tr ++ lr.1, halt := some Outcome.noResponse }
        | ListResult.noItems =>
            -- get_channel_videos_list returned None and
            -- write_channel_video_list_to_file iterates over None: TypeError.
            { world := w, trace := tr ++ lr.1, halt := some Outcome.typeError }
        | ListResult.ok ids =>
            let vlist := write_channel_video_list_to_file ids
            let w2 : World :=
              { w with videoFiles := alSet w.videoFiles ch1.channelID vlist }
            stepVideos api w2 idx ch1 (tr ++ lr.1) vlist
    | some vlist => stepVideos api w idx ch1 tr vlist

/-- One iteration of the channel loop of process_channels, at roster index idx
holding channel record ch: the statistics branch, then the videos branch.  The
channel record passed on has its statistics flag set, matching the in-place
mutation of channel_info; its fetched_videos field is the one read at the top
of the iteration. -/
def stepChannel (api : Api) (w : World) (idx : Nat) (ch : ChannelInfo) :
    StepResult :=
  let p := statsPhase api w idx ch
  videoPhase api p.1 idx { ch with fetched_statistics := true } p.2

/-- The outcome of a whole run: the final persisted state, the trace of remote
calls, the final channels_processed counter, the index of the first channel
not visited (or the index of the channel during which the run aborted), and
the way the run ended. -/
structure RunResult where
  world : World
  trace : List ApiCall
  processed : Nat
  finalIdx : Nat
  outcome : Outcome
deriving DecidableEq

/-- The channel loop of process_channels: at each index, break when
channels_processed has reached max_channels, otherwise run one iteration;
an exception aborts the run, a completed iteration increments
channels_processed.  The fuel starts at the roster length, which never changes
during a run. -/
def runLoop (api : Api) (maxChannels : Nat) :
    Nat → Nat → Nat → World → List ApiCall → RunResult
  | 0, idx, processed, w, tr =>
      { world := w, trace := tr, processed := processed, finalIdx := idx
        outcome := Outcome.ok }
  | fuel + 1, idx, processed, w, tr =>
      match w.roster.get? idx with
      | none =>
          { world := w, trace := tr, processed := processed, finalIdx := idx
            outcome := Outcome.ok }
      | some ch =>
          if maxChannels ≤ processed then
            { world := w, trace := tr, processed := processed, finalIdx := idx
              outcome := Outcome.ok }
          else
            let r := stepChannel api w idx ch
            match r.halt with
            | some o =>
                { world := r.world, trace := tr ++ r.trace
                  processed := processed, finalIdx := idx, outcome := o }
            | none =>
                runLoop api maxChannels fuel (idx + 1) (processed + 1)
                  r.world (tr ++ r.trace)

/-- process_channels from youtube_data_processing.py: load the persisted
state, loop over the roster. -/
def process_channels (api : Api) (maxChannels : Nat) (w : World) : RunResult :=
  runLoop api maxChannels w.roster.length 0 0 w []

/-- Consistency of persisted statistics: every roster channel whose
fetched_statistics flag is true has a cell in the dataset file. -/
def RosterStatsOK (w : World) : Prop :=
  ∀ ch ∈ w.roster, ch.fetched_statistics = true →
    (alGet w.df ch.channelID).isSome = true

/-- Consistency of persisted video data: every video whose fetched_video flag
is persisted true in some channel video list file has its payload in that
channel cell of the dataset file. -/
def VideoDataOK (api : Api) (w : World) : Prop :=
  ∀ cid vs, alGet w.videoFiles cid = some vs →
    ∀ e ∈ vs, e.fetched_video = true →
      ∃ cell, alGet w.df cid = some cell ∧ api.video e.VideoID ∈ cell.videos

/-- Flag ordering: a channel with some video flag persisted true has its
statistics flag true in every roster entry carrying its id (the statistics
branch resets the videos of the cell, so a pending statistics fetch must mean
no video data has been recorded yet). -/
def VideoFlagsOK (w : World) : Prop :=
  ∀ cid vs, alGet w.videoFiles cid = some vs →
    ∀ e ∈ vs, e.fetched_video = true →
      ∀ ch ∈ w.roster, ch.channelID = cid → ch.fetched_statistics = true

/-- The full no-corruption invariant of the persisted harvest state: no
channel and no video has a fetched flag persisted true while the corresponding
data is absent from the dataset file. -/
def HarvestInv (api : Api) (w : World) : Prop :=
  RosterStatsOK w ∧ VideoDataOK api w ∧ VideoFlagsOK w

/-- The roster lists each channel id at most once. -/
def NodupRoster (w : World) : Prop :=
  (w.roster.map ChannelInfo.channelID).Nodup

/-- A remote API whose statistics endpoint reports quota exhaustion (HTTP 403,
message containing quota) while the search endpoint still answers with an
empty item page. -/
def apiQuotaStats : Api :=
  { stats := fun _ => { error := some { code := 403, message := "quota exceeded" } }
    listPages := fun _ => [{ items := some [] }]
    video := fun _ => {} }

/-- A fresh one-channel roster with nothing fetched yet. -/
def freshWorld : World :=
  { df := []
    roster := [{ channelID := "A", fetched_videos := false
                 fetched_statistics := false }]
    videoFiles := [] }

/-- The detail calls the per-video loop makes on a video list: one call per
entry whose flag is false, in list order. -/
def unfetchedCalls (vs : List VideoEntry) : List ApiCall :=
  vs.filterMap (fun e =>
    if e.fetched_video then none else some (ApiCall.video e.VideoID))

/-- The payloads those calls return, in the same order. -/
def unfetchedData (api : Api) (vs : List VideoEntry) : List YtData :=
  vs.filterMap (fun e =>
    if e.fetched_video then none else some (api.video e.VideoID))

/-- A video list with every flag set true. -/
def allFetched (vs : List VideoEntry) : List VideoEntry :=
  vs.map (fun e => { e with fetched_video := true })

/-- The persisted state of the resumability scenario: one channel whose
statistics are already fetched, whose dataframe cell exists, and whose video
list file carries the given per-video flags. -/
def resumeWorld (cid : String) (vs : List VideoEntry) (cell : Cell) : World :=
  { df := [(cid, cell)]
    roster := [{ channelID := cid, fetched_videos := false
                 fetched_statistics := true }]
    videoFiles := [(cid, vs)] }

/-- A remote API answering every video detail request with a payload echoing
the video id. -/
def apiEcho : Api :=
  { stats := fun _ => { body := "stats" }
    listPages := fun _ => []
    video := fun v => { body := v } }

/-- A remote API whose responses carry no data: statistics and video detail
return empty payloads, the video search has no pages. -/
def apiTrivial : Api :=
  { stats := fun _ => {}, listPages := fun _ => [], video := fun _ => {} }

/-- A persisted state whose first channel is fully done and whose second still
needs all its work. -/
def doneThenTodo : World :=
  { df := []
    roster := [{ channelID := "A", fetched_videos := true, fetched_statistics := true },
               { channelID := "B", fetched_videos := false, fetched_statistics := false }]
    videoFiles := [] }

/-- A remote API reporting no items for the video search of any channel. -/
def apiNoItems : Api :=
  { stats := fun _ => {}
    listPages := fun _ => [{ items := none }]
    video := fun _ => {} }

/-- A persisted state where channel A still needs its video list and channel B
needs everything. -/
def noItemsWorld : World :=
  { df := [("A", { videos := [], statistics := {} })]
    roster := [{ channelID := "A", fetched_videos := false, fetched_statistics := true },
               { channelID := "B", fetched_videos := false, fetched_statistics := false }]
    videoFiles := [] }

end YT

namespace QGR

/-- A character of the output of the newline-collapsing pass occurs in its
input. -/
theorem mem_collapseNl {a : Char} : ∀ {l : List Char}, a ∈ collapseNl l → a ∈ l
  | [], h => h
  | c :: rest, h => by
      unfold collapseNl at h
      split at h
      · exact List.mem_cons_of_mem c (mem_collapseNl h)
      · rcases List.mem_cons.mp h with h1 | h2
        · exact h1 ▸ List.mem_cons_self c rest
        · exact List.mem_cons_of_mem c (mem_collapseNl h2)

/-- A character of the output of the space-collapsing pass occurs in its
input. -/
theorem mem_collapseSp {a : Char} : ∀ {l : List Char}, a ∈ collapseSp l → a ∈ l
  | [], h => h
  | c :: rest, h => by
      unfold collapseSp at h
      split at h
      · exact List.mem_cons_of_mem c (mem_collapseSp h)
      · rcases List.mem_cons.mp h with h1 | h2
        · exact h1 ▸ List.mem_cons_self c rest
        · exact List.mem_cons_of_mem c (mem_collapseSp h2)

/-- Every character of a plain-mode cleaning output lies in the allowed
class. -/
theorem clean_description_mem_allowed {s : String} {c : Char}
    (h : c ∈ (clean_description (some s)).data) : isAllowedChar c = true := by
  simp only [clean_description] at h
  have h1 := mem_collapseNl (mem_collapseSp h)
  exact (List.mem_filter.mp h1).2

/-- A timestamp match needs a colon in the scanned text. -/
theorem tsMatchLen_colon_mem {l : List Char} {m : Nat}
    (h : tsMatchLen l = some m) : ':' ∈ l := by
  unfold tsMatchLen at h
  by_cases h1 : digitRun l = 0
  · simp [h1] at h
  · rw [if_neg h1] at h
    cases h2 : l.drop (digitRun l) with
    | nil => rw [h2] at h; exact absurd h (by simp)
    | cons x r2 =>
        rw [h2] at h
        by_cases hx : x = ':'
        · subst hx
          have : ':' ∈ l.drop (digitRun l) := by rw [h2]; exact List.mem_cons_self _ _
          exact List.mem_of_mem_drop this
        · exact absurd h (by cases x; simp_all)

/-- The timestamp scanner only fires on text containing a colon. -/
theorem hasTsToken_colon_mem : ∀ {l : List Char}, hasTsToken l = true → ':' ∈ l
  | [], h => by simp [hasTsToken] at h
  | c :: rest, h => by
      unfold hasTsToken at h
      rcases Bool.or_eq_true_iff.mp h with h1 | h2
      · exact tsMatchLen_colon_mem (Option.isSome_iff_exists.mp h1).choose_spec
      · exact List.mem_cons_of_mem c (hasTsToken_colon_mem h2)

/-- An input on which deleting a disallowed character (a tab) merges two short
tokens: cleaning leaves the text http followed by 27 letters. -/
def mergeInput : String := "htt\tpaaaaaaaaaaaaaaaaaaaaaaaaaaa"

/-- C6, counterexample.  The claim states that plain-mode cleaning output
contains no URL token and no run of 30 or more consecutive non-space
characters.  On mergeInput the input has no URL token and only runs shorter
than 30, but the special-character pass deletes the tab after the long-run and
URL passes already ran, merging htt and p into a URL token heading a 31
character non-space run: both prohibited shapes occur in the output. -/
theorem clean_description_recreates_url_and_long_run :
    hasUrlToken (clean_description (some mergeInput)).data = true ∧
    hasLongRun (clean_description (some mergeInput)).data = true := by
  constructor <;> decide

/-- C6, amended.  For every text input, every character of the plain-mode
cleaning output lies in the class A-Z a-z 0-9 space newline dot, and the
output contains no substring matching the timestamp patterns H:MM:SS or MM:SS
(the URL and 30-character-run guarantees of the original claim fail, because
the later special-character deletion can merge adjacent tokens). -/
theorem clean_description_charset_and_no_timestamp (s : String) :
    (∀ c ∈ (clean_description (some s)).data, isAllowedChar c = true) ∧
    hasTsToken (clean_description (some s)).data = false := by
  refine ⟨fun c hc => clean_description_mem_allowed hc, ?_⟩
  by_contra hts
  have h1 : hasTsToken (clean_description (some s)).data = true := by
    revert hts
    cases hasTsToken (clean_description (some s)).data <;> simp
  have h2 : (':' : Char) ∈ (clean_description (some s)).data :=
    hasTsToken_colon_mem h1
  have h3 := clean_description_mem_allowed h2
  simp [isAllowedChar, pyIsDigit] at h3

/-- C8, counterexample.  The claim states that on null input the cleaning
operation returns the empty string in both modes; clean_latex has no null
guard and raises TypeError instead. -/
theorem clean_latex_none_not_empty :
    clean_latex none ≠ Except.ok "" := by
  simp [clean_latex]

/-- C8, amended.  On null input, plain-mode cleaning returns the empty string;
markup/LaTeX-mode cleaning has no null guard and raises a TypeError instead of
returning a string. -/
theorem clean_none_modes :
    clean_description none = "" ∧ clean_latex none = Except.error "TypeError" :=
  ⟨rfl, rfl⟩

/-- Every truncated field has at most its slice length. -/
theorem truncField_length_le (x : Option String) (b n : Nat) :
    (truncField x b n).length ≤ n := by
  have h : (truncField x b n).length =
      (((if b < (orUnknown x).length then
          clean_description (some (orUnknown x)) else orUnknown x)).data.take n).length := rfl
  rw [h, List.length_take]
  exact min_le_left _ _

/-- C2, amended.  Every string field of an IndexRecord assembled by
process_and_insert_documents is bounded by its slice length: title at most
900, date at most 250, authors at most 1000, abstract at most 4000, category
at most 250, and keywords at most 1004 (the source slices keywords with
[:1004], not [:1000] as the original claim states). -/
theorem record_fields_bounded (entry : DocEntry) :
    (process_and_insert_documents_fields entry).title.length ≤ 900 ∧
    (process_and_insert_documents_fields entry).date.length ≤ 250 ∧
    (process_and_insert_documents_fields entry).authors.length ≤ 1000 ∧
    (process_and_insert_documents_fields entry).abstract.length ≤ 4000 ∧
    (process_and_insert_documents_fields entry).keywords.length ≤ 1004 ∧
    (process_and_insert_documents_fields entry).category.length ≤ 250 :=
  ⟨truncField_length_le _ _ _, truncField_length_le _ _ _,
   truncField_length_le _ _ _, truncField_length_le _ _ _,
   truncField_length_le _ _ _, truncField_length_le _ _ _⟩

/-- A 1004-character keywords value that clean_description maps to itself:
alternating letter and space. -/
def longKeywords : DocEntry :=
  { keywords := some (String.mk ((List.replicate 502 ['a', ' ']).flatten)) }

set_option maxRecDepth 40000 in
/-- C2, counterexample.  The claim bounds the keywords field by 1000
characters; on a 1004-character input of alternating letters and spaces the
cleaning pass (triggered because the length exceeds 1000) is the identity and
the [:1004] slice keeps all 1004 characters. -/
theorem keywords_field_exceeds_1000 :
    1000 < (process_and_insert_documents_fields longKeywords).keywords.length := by
  decide

/-- C10, confirmed.  process_file_from_folder returns the parsed entry and the
path of exactly the first file ending in .json in the directory walk, with
authors joined by a comma-space separator and category derived from the
relative folder path, and returns the pair (none, none) when the walk contains
no such file; it never aggregates more than one file. -/
theorem process_file_from_folder_first_json (walk : List DirEntry) :
    process_file_from_folder walk =
      match findFirstJson walk with
      | none => (none, none)
      | some (e, name, d) =>
          (some { title := d.title, date := d.date
                  authors := String.intercalate ", " (d.authors.getD [])
                  abstract := d.abstract, content := d.latex_doc
                  category := some (categoryOf e) },
           some (e.root ++ "/" ++ name)) := by
  induction walk with
  | nil => rfl
  | cons e rest ih =>
      unfold process_file_from_folder findFirstJson
      rw [List.findSome?_cons]
      cases h : firstJsonIn e.files with
      | none =>
          simp only [Option.map_none']
          exact ih
      | some f => simp [mkFolderEntry]

/-- Looking a key up after appending a single pair: the old binding wins. -/
theorem alGet_append_single {β : Type} (l : List (String × β)) (k id : String)
    (v : β) :
    alGet (l ++ [(k, v)]) id =
      match alGet l id with
      | some w => some w
      | none => if k = id then some v else none := by
  induction l with
  | nil => simp [alGet]
  | cons p rest ih =>
      by_cases hp : p.1 = id
      · simp [alGet, hp]
      · simp only [List.cons_append, alGet, if_neg hp]
        exact ih

/-- Looking a key up in a pointwise update of the values at one key. -/
theorem alGet_mapUpdate {β : Type} (l : List (String × β)) (k id : String)
    (f : β → β) :
    alGet (l.map (fun p => if p.1 = k then (p.1, f p.2) else p)) id =
      if id = k then (alGet l id).map f else alGet l id := by
  induction l with
  | nil => simp [alGet]
  | cons p rest ih =>
      by_cases hp : p.1 = k
      · by_cases hid : id = k
        · simp [alGet, hp, hid, hp.trans hid.symm]
        · have h1 : ¬ p.1 = id := by
            rw [hp]; exact fun hcon => hid hcon.symm
          simp only [List.map_cons, if_pos hp, alGet, if_neg h1, if_neg hid, ih]
      · by_cases hpid : p.1 = id
        · by_cases hid : id = k
          · exact absurd (hpid.trans hid) hp
          · simp [alGet, hp, hpid, hid]
        · by_cases hid : id = k
          · simp only [List.map_cons, if_neg hp, alGet, if_neg hpid, ih,
              if_pos hid]
          · simp only [List.map_cons, if_neg hp, alGet, if_neg hpid, ih,
              if_neg hid]

/-- Effect of one grouping step on a lookup. -/
theorem alGet_groupStep {α : Type} (acc : List (String × Group α)) (hit : Hit α)
    (id : String) :
    alGet (groupStep acc hit) id =
      if hit.documentId = id then
        match alGet acc id with
        | none => some (seedGroup hit)
        | some g => some (appendContent hit.content g)
      else alGet acc id := by
  unfold groupStep
  cases halk : alGet acc hit.documentId with
  | none =>
      rw [alGet_append_single]
      by_cases hd : hit.documentId = id
      · subst hd
        rw [halk]
      · rw [if_neg hd, if_neg hd]
        cases alGet acc id <;> rfl
  | some g0 =>
      rw [alGet_mapUpdate]
      by_cases hd : hit.documentId = id
      · subst hd
        rw [halk, if_pos rfl, if_pos rfl]
        rfl
      · rw [if_neg (fun hcon => hd hcon.symm), if_neg hd]

/-- Folding the grouping step over a hit list: the lookup of a documentId is
the seed of its first hit extended by the contents of all its later hits, in
encounter order; an accumulator binding only ever grows its contents list. -/
theorem groupFold_lookup {α : Type} (results : List (Hit α))
    (acc : List (String × Group α)) (id : String) :
    alGet (results.foldl groupStep acc) id =
      match alGet acc id with
      | some g => some { g with contents := g.contents ++
          ((results.filter (fun h => h.documentId = id)).map (fun h => h.content)) }
      | none =>
          match results.find? (fun h => h.documentId = id) with
          | none => none
          | some h => some { seedGroup h with contents :=
              ((results.filter (fun h2 => h2.documentId = id)).map
                (fun h2 => h2.content)) } := by
  induction results generalizing acc with
  | nil =>
      rw [List.foldl_nil]
      cases halk : alGet acc id with
      | none => simp
      | some g => cases g; simp
  | cons h t ih =>
      rw [List.foldl_cons, ih, alGet_groupStep]
      by_cases hd : h.documentId = id
      · rw [if_pos hd]
        cases halk : alGet acc id with
        | none =>
            simp only [List.find?_cons, List.filter_cons, hd]
            cases hfind : List.find? (fun h2 => decide (h2.documentId = id)) t <;>
              simp [seedGroup, appendContent]
        | some g =>
            simp only [List.filter_cons, hd]
            simp [appendContent, List.append_assoc]
      · rw [if_neg hd]
        have hdec : (decide (h.documentId = id)) = false := by simp [hd]
        cases halk : alGet acc id with
        | none => simp [List.find?_cons, List.filter_cons, hdec]
        | some g => simp [List.filter_cons, hdec]

/-- C5, confirmed.  For every hit list, the group that group_by_document_id
returns for a documentId takes all its metadata and its score from the first
hit with that id in encounter order, and its contents list has exactly the
content of each hit sharing that id, appended in encounter order; a
documentId with no hit has no group. -/
theorem group_by_document_id_first_seen {α : Type} (results : List (Hit α))
    (id : String) :
    alGet (group_by_document_id results) id =
      match results.find? (fun h => h.documentId = id) with
      | none => none
      | some h => some
          { title := h.title, date := h.date, authors := h.authors
            abstract := h.abstract, keywords := h.keywords
            category := h.category
            contents := (results.filter (fun h2 => h2.documentId = id)).map
              (fun h2 => h2.content)
            score := h.score } := by
  unfold group_by_document_id
  rw [groupFold_lookup]
  cases hfind : results.find? (fun h => h.documentId = id) with
  | none => simp [alGet]
  | some h => simp [alGet, seedGroup]

/-- A chunk sequence is never empty. -/
theorem chunkWindows_ne_nil (s : List Char) : chunkWindows s ≠ [] := by
  unfold chunkWindows
  split <;> simp

/-- The head chunk starts with the first 20 characters of the text. -/
theorem chunkWindows_head_take (s : List Char) :
    ∃ h t, chunkWindows s = h :: t ∧ h.take 20 = s.take 20 := by
  unfold chunkWindows
  split
  · exact ⟨s, [], rfl, rfl⟩
  · refine ⟨s.take 512, chunkWindows (s.drop 492), rfl, ?_⟩
    rw [List.take_take]
    norm_num

/-- Dropping the 20-character overlap of every chunk and concatenating yields
the text without its first 20 characters. -/
theorem chunkWindows_drop_flatten (s : List Char) :
    ((chunkWindows s).map (fun d => d.drop 20)).flatten = s.drop 20 := by
  unfold chunkWindows
  split
  · simp
  · rename_i h
    push_neg at h
    rw [List.map_cons, List.flatten_cons, chunkWindows_drop_flatten (s.drop 492)]
    rw [List.drop_take]
    have h3 : (s.drop 492).drop 20 = (s.drop 20).drop 492 := by
      rw [List.drop_drop, List.drop_drop]
    rw [h3]
    have h4 : (512 - 20 : Nat) = 492 := by norm_num
    rw [h4, List.take_append_drop]
termination_by s.length
decreasing_by simp only [List.length_drop]; omega

/-- Every chunk has at most 512 characters. -/
theorem chunkWindows_length_le (s : List Char) :
    ∀ c ∈ chunkWindows s, c.length ≤ 512 := by
  unfold chunkWindows
  split
  · rename_i h
    intro c hc
    rw [List.mem_singleton] at hc
    exact hc ▸ h
  · intro c hc
    rcases List.mem_cons.mp hc with rfl | hmem
    · rw [List.length_take]
      exact min_le_left _ _
    · exact chunkWindows_length_le (s.drop 492) c hmem
termination_by s.length
decreasing_by simp only [List.length_drop]; omega

/-- Consecutive chunks overlap in 20 characters: the last 20 characters of a
chunk are the first 20 of the next. -/
theorem chunkWindows_chain (s : List Char) :
    List.Chain' (fun a b => a.drop (a.length - 20) = b.take 20)
      (chunkWindows s) := by
  unfold chunkWindows
  split
  · simp
  · rename_i h
    push_neg at h
    rw [List.chain'_cons']
    refine ⟨?_, chunkWindows_chain (s.drop 492)⟩
    intro y hy
    obtain ⟨hd, tl, heq, htake⟩ := chunkWindows_head_take (s.drop 492)
    rw [heq] at hy
    simp only [List.head?_cons, Option.mem_def, Option.some.injEq] at hy
    subst hy
    rw [htake]
    have hlen : (s.take 512).length = 512 := by
      rw [List.length_take]
      omega
    rw [hlen]
    have h4 : (512 - 20 : Nat) = 492 := by norm_num
    rw [h4, List.drop_take]
termination_by s.length
decreasing_by simp only [List.length_drop]; omega

/-- Dropping the overlaps reconstructs the text. -/
theorem chunkWindows_reconstruct (s : List Char) :
    reconstructChunks (chunkWindows s) = s := by
  unfold chunkWindows
  split
  · simp [reconstructChunks]
  · rename_i h
    push_neg at h
    rw [reconstructChunks, chunkWindows_drop_flatten (s.drop 492),
      List.drop_drop]
    have h4 : (492 + 20 : Nat) = 512 := by norm_num
    rw [h4, List.take_append_drop]

/-- C9, confirmed (spec-modelled chunker).  For every normalized text, the
chunker with chunk size 512 and overlap 20 produces a finite sequence of
chunks in which every chunk has at most 512 characters, each pair of
consecutive chunks shares 20 characters of context, and concatenating the
chunks with the leading overlaps removed reconstructs the input with nothing
dropped. -/
theorem splitText_chunk_invariants (s : List Char) :
    (∀ c ∈ chunkWindows s, c.length ≤ 512) ∧
    List.Chain' (fun a b => a.drop (a.length - 20) = b.take 20)
      (chunkWindows s) ∧
    reconstructChunks (chunkWindows s) = s :=
  ⟨chunkWindows_length_le s, chunkWindows_chain s, chunkWindows_reconstruct s⟩

end QGR

namespace YT

/-- A channel with both flags already true makes one full loop iteration with
no remote call and no state change. -/
theorem stepChannel_idle {api : Api} {w : World} {idx : Nat} {ch : ChannelInfo}
    (hs : ch.fetched_statistics = true) (hv : ch.fetched_videos = true) :
    stepChannel api w idx ch = { world := w, trace := [], halt := none } := by
  simp [stepChannel, statsPhase, videoPhase, hs, hv]

/-- One channel iteration never changes the roster length. -/
theorem stepChannel_roster_length (api : Api) (w : World) (idx : Nat)
    (ch : ChannelInfo) :
    (stepChannel api w idx ch).world.roster.length = w.roster.length := by
  simp only [stepChannel, statsPhase, videoPhase, stepVideos,
    get_channel_videos_list]
  repeat' split
  all_goals simp [List.length_set]

/-- One channel iteration touches no roster entry other than its own index. -/
theorem stepChannel_roster_get_ne (api : Api) (w : World) (idx : Nat)
    (ch : ChannelInfo) {j : Nat} (hne : j ≠ idx) :
    (stepChannel api w idx ch).world.roster.get? j = w.roster.get? j := by
  simp only [stepChannel, statsPhase, videoPhase, stepVideos,
    get_channel_videos_list]
  repeat' split
  all_goals
    simp [List.get?_eq_getElem?, List.getElem?_set_ne (Ne.symm hne)]

/-- The per-video loop only ever aborts with a quota or key exception. -/
theorem processVideos_halt_ne_ok (api : Api) (cid : String) :
    ∀ (vs : List VideoEntry) (df : List (String × Cell)),
      (processVideos api cid df vs).halt ≠ some Outcome.ok := by
  intro vs
  induction vs with
  | nil => intro df; simp [processVideos]
  | cons e rest ih =>
      intro df
      simp only [processVideos]
      split
      · exact ih df
      · split
        · simp
        · split
          · simp
          · exact ih _

/-- The video phase only ever aborts with a quota or key exception. -/
theorem stepVideos_halt_ne_ok (api : Api) (w : World) (idx : Nat)
    (ch1 : ChannelInfo) (tr : List ApiCall) (vlist : List VideoEntry) :
    (stepVideos api w idx ch1 tr vlist).halt ≠ some Outcome.ok := by
  simp only [stepVideos]
  cases hhalt : (processVideos api ch1.channelID w.df vlist).halt with
  | none => simp
  | some o =>
      simp only [Ne, StepResult.mk.injEq]
      intro hcon
      apply processVideos_halt_ne_ok api ch1.channelID vlist w.df
      rw [hhalt]
      exact congrArg some (Option.some.inj hcon)

/-- A channel iteration never reports a normal outcome as an exception. -/
theorem stepChannel_halt_ne_ok (api : Api) (w : World) (idx : Nat)
    (ch : ChannelInfo) :
    (stepChannel api w idx ch).halt ≠ some Outcome.ok := by
  simp only [stepChannel, statsPhase, videoPhase, get_channel_videos_list]
  repeat' split
  all_goals first
    | exact stepVideos_halt_ne_ok _ _ _ _ _ _
    | simp

/-- The channels_processed counter never exceeds the cap. -/
theorem runLoop_processed_le (api : Api) (maxChannels : Nat) :
    ∀ (fuel idx p : Nat) (w : World) (tr : List ApiCall), p ≤ maxChannels →
      (runLoop api maxChannels fuel idx p w tr).processed ≤ maxChannels := by
  intro fuel
  induction fuel with
  | zero => intro idx p w tr hp; exact hp
  | succ fuel ih =>
      intro idx p w tr hp
      unfold runLoop
      cases hget : w.roster.get? idx with
      | none => exact hp
      | some ch =>
          by_cases hbreak : maxChannels ≤ p
          · simp only [if_pos hbreak]
            exact hp
          · simp only [if_neg hbreak]
            cases hhalt : (stepChannel api w idx ch).halt with
            | some o => exact hp
            | none => exact ih _ _ _ _ (by omega)

/-- The loop never reports a stopping index below its starting index. -/
theorem runLoop_finalIdx_ge (api : Api) (maxChannels : Nat) :
    ∀ (fuel idx p : Nat) (w : World) (tr : List ApiCall),
      idx ≤ (runLoop api maxChannels fuel idx p w tr).finalIdx := by
  intro fuel
  induction fuel with
  | zero => intro idx p w tr; exact Nat.le_refl idx
  | succ fuel ih =>
      intro idx p w tr
      unfold runLoop
      cases hget : w.roster.get? idx with
      | none => exact Nat.le_refl idx
      | some ch =>
          by_cases hbreak : maxChannels ≤ p
          · simp only [if_pos hbreak]
            exact Nat.le_refl idx
          · simp only [if_neg hbreak]
            cases hhalt : (stepChannel api w idx ch).halt with
            | some o => exact Nat.le_refl idx
            | none => exact Nat.le_of_succ_le (ih (idx + 1) _ _ _)

/-- Roster entries strictly beyond the stopping index are never touched. -/
theorem runLoop_untouched (api : Api) (maxChannels : Nat) :
    ∀ (fuel idx p : Nat) (w : World) (tr : List ApiCall) (j : Nat),
      (runLoop api maxChannels fuel idx p w tr).finalIdx < j →
      (runLoop api maxChannels fuel idx p w tr).world.roster.get? j =
        w.roster.get? j := by
  intro fuel
  induction fuel with
  | zero => intro idx p w tr j _; rfl
  | succ fuel ih =>
      intro idx p w tr j hj
      unfold runLoop at hj ⊢
      cases hget : w.roster.get? idx with
      | none => rfl
      | some ch =>
          rw [hget] at hj
          by_cases hbreak : maxChannels ≤ p
          · simp only [if_pos hbreak] at hj ⊢
          · simp only [if_neg hbreak] at hj ⊢
            cases hhalt : (stepChannel api w idx ch).halt with
            | some o =>
                rw [hhalt] at hj
                simp only at hj
                exact stepChannel_roster_get_ne api w idx ch (by omega)
            | none =>
                rw [hhalt] at hj
                simp only at hj
                have hge := runLoop_finalIdx_ge api maxChannels fuel (idx + 1)
                  (p + 1) (stepChannel api w idx ch).world
                  (tr ++ (stepChannel api w idx ch).trace)
                rw [ih (idx + 1) (p + 1) _ _ j hj]
                exact stepChannel_roster_get_ne api w idx ch (by omega)

/-- On a normal completion, every roster entry from the stopping index on is
untouched (the loop breaks before reading the entry at the stopping index). -/
theorem runLoop_untouched_ok (api : Api) (maxChannels : Nat) :
    ∀ (fuel idx p : Nat) (w : World) (tr : List ApiCall) (j : Nat),
      (runLoop api maxChannels fuel idx p w tr).outcome = Outcome.ok →
      (runLoop api maxChannels fuel idx p w tr).finalIdx ≤ j →
      (runLoop api maxChannels fuel idx p w tr).world.roster.get? j =
        w.roster.get? j := by
  intro fuel
  induction fuel with
  | zero => intro idx p w tr j _ _; rfl
  | succ fuel ih =>
      intro idx p w tr j hok hj
      unfold runLoop at hok hj ⊢
      cases hget : w.roster.get? idx with
      | none => rfl
      | some ch =>
          rw [hget] at hok hj
          by_cases hbreak : maxChannels ≤ p
          · simp only [if_pos hbreak] at hok hj ⊢
          · simp only [if_neg hbreak] at hok hj ⊢
            cases hhalt : (stepChannel api w idx ch).halt with
            | some o =>
                rw [hhalt] at hok hj
                simp only at hok
                exact absurd (hok ▸ hhalt) (stepChannel_halt_ne_ok api w idx ch)
            | none =>
                rw [hhalt] at hok hj
                simp only at hok hj
                have hge := runLoop_finalIdx_ge api maxChannels fuel (idx + 1)
                  (p + 1) (stepChannel api w idx ch).world
                  (tr ++ (stepChannel api w idx ch).trace)
                rw [ih (idx + 1) (p + 1) _ _ j hok hj]
                exact stepChannel_roster_get_ne api w idx ch (by omega)

/-- On a normal completion the loop stopped either at the cap or past the end
of the roster. -/
theorem runLoop_stop (api : Api) (maxChannels : Nat) :
    ∀ (fuel idx p : Nat) (w : World) (tr : List ApiCall),
      p ≤ maxChannels →
      w.roster.length ≤ idx + fuel →
      (runLoop api maxChannels fuel idx p w tr).outcome = Outcome.ok →
      (runLoop api maxChannels fuel idx p w tr).processed = maxChannels ∨
        w.roster.length ≤ (runLoop api maxChannels fuel idx p w tr).finalIdx := by
  intro fuel
  induction fuel with
  | zero => intro idx p w tr _ hlen _; exact Or.inr hlen
  | succ fuel ih =>
      intro idx p w tr hp hlen hok
      unfold runLoop at hok ⊢
      cases hget : w.roster.get? idx with
      | none =>
          refine Or.inr ?_
          have := List.get?_eq_none.mp hget
          exact this
      | some ch =>
          rw [hget] at hok
          by_cases hbreak : maxChannels ≤ p
          · simp only [if_pos hbreak]
            exact Or.inl (Nat.le_antisymm hp hbreak)
          · simp only [if_neg hbreak] at hok ⊢
            cases hhalt : (stepChannel api w idx ch).halt with
            | some o =>
                rw [hhalt] at hok
                simp only at hok
                exact absurd (hok ▸ hhalt) (stepChannel_halt_ne_ok api w idx ch)
            | none =>
                rw [hhalt] at hok
                simp only at hok
                have hlen' : (stepChannel api w idx ch).world.roster.length ≤
                    (idx + 1) + fuel := by
                  rw [stepChannel_roster_length]
                  omega
                rcases ih (idx + 1) (p + 1) _ _ (by omega) hlen' hok with h1 | h2
                · exact Or.inl h1
                · refine Or.inr ?_
                  rw [stepChannel_roster_length] at h2
                  exact h2

/-- On a roster whose channels all have both flags true, every visited channel
completes its iteration with no remote call and counts toward the cap. -/
theorem runLoop_idle (api : Api) (maxChannels : Nat) :
    ∀ (fuel idx p : Nat) (w : World) (tr : List ApiCall),
      (∀ ch ∈ w.roster, ch.fetched_videos = true ∧ ch.fetched_statistics = true) →
      w.roster.length ≤ idx + fuel →
      (runLoop api maxChannels fuel idx p w tr).trace = tr ∧
      (runLoop api maxChannels fuel idx p w tr).processed =
        p + min (maxChannels - p) (w.roster.length - idx) ∧
      (runLoop api maxChannels fuel idx p w tr).world = w := by
  intro fuel
  induction fuel with
  | zero =>
      intro idx p w tr _ hlen
      have h0 : w.roster.length - idx = 0 := by omega
      rw [h0]
      simp [runLoop]
  | succ fuel ih =>
      intro idx p w tr hall hlen
      unfold runLoop
      cases hget : w.roster.get? idx with
      | none =>
          have hidx : w.roster.length ≤ idx := List.get?_eq_none.mp hget
          have h0 : w.roster.length - idx = 0 := by omega
          rw [h0]
          simp
      | some ch =>
          have hidx : idx < w.roster.length := by
            by_contra hcon
            rw [List.get?_eq_none.mpr (by omega)] at hget
            cases hget
          obtain ⟨hv, hs⟩ := hall ch (List.get?_mem hget)
          by_cases hbreak : maxChannels ≤ p
          · simp only [if_pos hbreak]
            have h0 : maxChannels - p = 0 := by omega
            rw [h0]
            simp
          · simp only [if_neg hbreak]
            rw [stepChannel_idle hs hv]
            simp only [List.append_nil]
            obtain ⟨h1, h2, h3⟩ := ih (idx + 1) (p + 1) w tr hall (by omega)
            refine ⟨h1, ?_, h3⟩
            rw [h2]
            omega

/-- C3, counterexample.  The claim states that a channel whose flags are
already true is skipped without counting toward the cap, so with cap 1 the
run should still process channel B.  Running process_channels with cap 1 on a
roster whose first channel is fully done makes no remote call at all, yet
consumes the whole cap on that idle channel and leaves channel B completely
unprocessed. -/
theorem cap_consumed_by_idle_channel :
    (process_channels apiTrivial 1 doneThenTodo).trace = [] ∧
    (process_channels apiTrivial 1 doneThenTodo).processed = 1 ∧
    (process_channels apiTrivial 1 doneThenTodo).outcome = Outcome.ok ∧
    (process_channels apiTrivial 1 doneThenTodo).finalIdx = 1 ∧
    (process_channels apiTrivial 1 doneThenTodo).world.roster.get? 1 =
      some { channelID := "B", fetched_videos := false
             fetched_statistics := false } := by
  refine ⟨rfl, rfl, rfl, rfl, rfl⟩

/-- C3, amended.  process_channels visits channels in input order and stops
only at the cap or at the end of the roster: the counter never exceeds
maxChannels; a normal completion means the cap was reached or the whole
roster was visited; entries from the stopping index on are untouched by a
normal run; and a channel whose flags are already true still completes an
iteration, makes no remote call, and counts toward the cap, so on an
all-done roster exactly min maxChannels (roster length) channels consume the
cap with an empty trace. -/
theorem process_channels_cap (api : Api) (maxChannels : Nat) (w : World) :
    (process_channels api maxChannels w).processed ≤ maxChannels ∧
    ((process_channels api maxChannels w).outcome = Outcome.ok →
      (process_channels api maxChannels w).processed = maxChannels ∨
        w.roster.length ≤ (process_channels api maxChannels w).finalIdx) ∧
    ((process_channels api maxChannels w).outcome = Outcome.ok →
      ∀ j, (process_channels api maxChannels w).finalIdx ≤ j →
        (process_channels api maxChannels w).world.roster.get? j =
          w.roster.get? j) ∧
    ((∀ ch ∈ w.roster, ch.fetched_videos = true ∧ ch.fetched_statistics = true) →
      (process_channels api maxChannels w).trace = [] ∧
      (process_channels api maxChannels w).processed =
        min maxChannels w.roster.length) := by
  refine ⟨runLoop_processed_le api maxChannels _ 0 0 w [] (Nat.zero_le _),
    fun hok => runLoop_stop api maxChannels _ 0 0 w [] (Nat.zero_le _)
      (by omega) hok,
    fun hok j hj => runLoop_untouched_ok api maxChannels _ 0 0 w [] j hok hj,
    fun hall => ?_⟩
  obtain ⟨h1, h2, _⟩ := runLoop_idle api maxChannels w.roster.length 0 0 w []
    hall (by omega)
  exact ⟨h1, by simpa using h2⟩

/-- C3, witness.  On a one-channel all-done roster with cap 2, the amended
theorem yields an empty trace and a processed count of min 2 1 = 1. -/
theorem process_channels_cap_witness :
    (process_channels apiTrivial 2
        { df := [], videoFiles := []
          roster := [{ channelID := "A", fetched_videos := true
                       fetched_statistics := true }] }).trace = [] ∧
    (process_channels apiTrivial 2
        { df := [], videoFiles := []
          roster := [{ channelID := "A", fetched_videos := true
                       fetched_statistics := true }] }).processed = 1 := by
  have h := (process_channels_cap apiTrivial 2
    { df := [], videoFiles := []
      roster := [{ channelID := "A", fetched_videos := true
                   fetched_statistics := true }] }).2.2.2 (by decide)
  exact ⟨h.1, by simpa using h.2⟩

/-- C7, code bug.  The claim (and the source comment Failed to get videos,
skipping) states that a channel for which the remote reports no videos is
skipped and the loop continues with the next channel.  In the source,
get_channel_videos_list returns None and write_channel_video_list_to_file
immediately iterates over that None, raising TypeError: the whole run aborts
after the single search call, channel B is never visited, and the None check
that was meant to skip the channel (if channel_videos is None: continue) is
unreachable.  This theorem evaluates the embedded code at the failing input:
the run ends with the TypeError after one remote call, with both channels
unprocessed. -/
theorem no_items_aborts_run :
    (process_channels apiNoItems 5 noItemsWorld).outcome = Outcome.typeError ∧
    (process_channels apiNoItems 5 noItemsWorld).trace = [ApiCall.listPage "A"] ∧
    (process_channels apiNoItems 5 noItemsWorld).processed = 0 ∧
    (process_channels apiNoItems 5 noItemsWorld).world.roster =
      noItemsWorld.roster := by
  refine ⟨rfl, rfl, rfl, rfl⟩

/-- Setting then reading the same key. -/
theorem alGet_alSet_self {β : Type} (l : List (String × β)) (k : String)
    (v : β) : QGR.alGet (QGR.alSet l k v) k = some v := by
  induction l with
  | nil => simp [QGR.alGet, QGR.alSet]
  | cons p rest ih =>
      by_cases hp : p.1 = k
      · simp [QGR.alGet, QGR.alSet, hp]
      · simp only [QGR.alSet, if_neg hp, QGR.alGet, ih]

/-- Setting one key leaves the lookups of every other key unchanged. -/
theorem alGet_alSet_ne {β : Type} (l : List (String × β)) {k k2 : String}
    (v : β) (h : k2 ≠ k) : QGR.alGet (QGR.alSet l k v) k2 = QGR.alGet l k2 := by
  have hk : ¬ (k = k2) := fun hcon => h hcon.symm
  induction l with
  | nil => simp [QGR.alSet, QGR.alGet, hk]
  | cons p rest ih =>
      by_cases hp : p.1 = k
      · simp [QGR.alGet, QGR.alSet, hp, hk]
      · simp only [QGR.alSet, if_neg hp, QGR.alGet, ih]

/-- Two successive writes to the same key collapse to the last one. -/
theorem alSet_alSet {β : Type} (l : List (String × β)) (k : String)
    (v v2 : β) : QGR.alSet (QGR.alSet l k v) k v2 = QGR.alSet l k v2 := by
  induction l with
  | nil => simp [QGR.alSet]
  | cons p rest ih =>
      by_cases hp : p.1 = k
      · simp [QGR.alSet, hp]
      · simp only [QGR.alSet, if_neg hp, ih]

/-- Writing back the value a key already holds is the identity. -/
theorem alSet_of_alGet {β : Type} (l : List (String × β)) (k : String)
    (v : β) (h : QGR.alGet l k = some v) : QGR.alSet l k v = l := by
  induction l with
  | nil => simp [QGR.alGet] at h
  | cons p rest ih =>
      obtain ⟨pk, pv⟩ := p
      by_cases hp : pk = k
      · subst hp
        simp only [QGR.alGet, if_pos rfl] at h
        have hv := Option.some.inj h
        simp [QGR.alSet, hv]
      · simp only [QGR.alGet, if_neg hp] at h
        simp [QGR.alSet, hp, ih h]

/-- The per-video loop on a cell that exists and an api that never reports
quota: it calls the detail endpoint for exactly the videos whose flag is
false, in list order, appends each payload to the cell, sets every flag, and
never aborts. -/
theorem processVideos_no_quota (api : Api) (cid : String) :
    ∀ (vs : List VideoEntry) (df : List (String × Cell)) (cell : Cell),
      QGR.alGet df cid = some cell →
      (∀ e ∈ vs, e.fetched_video = false →
        isQuotaError (api.video e.VideoID).error = false) →
      processVideos api cid df vs =
        { df := QGR.alSet df cid
            { cell with videos := (cell.videos ++ unfetchedData api vs) }
          vids := allFetched vs
          trace := unfetchedCalls vs
          halt := none } := by
  intro vs
  induction vs with
  | nil =>
      intro df cell hcell _
      simp only [processVideos, unfetchedData, unfetchedCalls, allFetched,
        List.filterMap_nil, List.map_nil, List.append_nil]
      have hcc : { cell with videos := cell.videos } = cell := by cases cell; rfl
      rw [hcc, alSet_of_alGet df cid cell hcell]
  | cons e rest ih =>
      intro df cell hcell hq
      obtain ⟨vid, flag⟩ := e
      cases flag with
      | true =>
          simp only [processVideos]
          rw [ih df cell hcell (fun e2 he2 => hq e2 (List.mem_cons_of_mem _ he2))]
          simp [unfetchedData, unfetchedCalls, allFetched, List.filterMap_cons]
      | false =>
          have hqe : isQuotaError (api.video vid).error = false :=
            hq { VideoID := vid, fetched_video := false }
              (List.mem_cons_self _ _) rfl
          simp only [processVideos]
          rw [if_neg (by simp)]
          rw [if_neg (by simp [hqe])]
          simp only [hcell]
          have hcell2 : QGR.alGet (QGR.alSet df cid
              { cell with videos := (cell.videos ++ [api.video vid]) }) cid =
              some { cell with videos := (cell.videos ++ [api.video vid]) } :=
            alGet_alSet_self _ _ _
          rw [ih _ _ hcell2 (fun e2 he2 => hq e2 (List.mem_cons_of_mem _ he2))]
          simp [alSet_alSet, unfetchedData, unfetchedCalls, allFetched,
            List.filterMap_cons, List.append_assoc]

/-- C4, confirmed.  From a persisted state where channel A has
fetchedStatistics true and fetchedVideos false and some of its videos are
already fetched, a re-run (with a positive cap and no quota error on the
remaining videos) completes normally, calls the detail endpoint for exactly
the videos whose flag is false, in order — so neither the statistics nor any
already-fetched video is re-fetched — and persists the video list with every
flag true. -/
theorem resume_skips_fetched (api : Api) (cid : String) (vs : List VideoEntry)
    (cell : Cell) (maxChannels : Nat) (hmax : 0 < maxChannels)
    (hq : ∀ e ∈ vs, e.fetched_video = false →
      isQuotaError (api.video e.VideoID).error = false) :
    (process_channels api maxChannels (resumeWorld cid vs cell)).outcome =
      Outcome.ok ∧
    (process_channels api maxChannels (resumeWorld cid vs cell)).trace =
      unfetchedCalls vs ∧
    QGR.alGet (process_channels api maxChannels
        (resumeWorld cid vs cell)).world.videoFiles cid =
      some (allFetched vs) := by
  have hpv := processVideos_no_quota api cid vs [(cid, cell)] cell
    (by simp [QGR.alGet]) hq
  have hstep : stepChannel api
      { df := [(cid, cell)]
        roster := [{ channelID := cid, fetched_videos := false
                     fetched_statistics := true }]
        videoFiles := [(cid, vs)] } 0
      { channelID := cid, fetched_videos := false
        fetched_statistics := true } =
      { world :=
          { df := QGR.alSet [(cid, cell)] cid
              { cell with videos := (cell.videos ++ unfetchedData api vs) }
            roster := [{ channelID := cid, fetched_videos := true
                         fetched_statistics := true }]
            videoFiles := QGR.alSet [(cid, vs)] cid (allFetched vs) }
        trace := unfetchedCalls vs
        halt := none } := by
    have hfile : QGR.alGet [(cid, vs)] cid = some vs := by simp [QGR.alGet]
    unfold stepChannel statsPhase videoPhase
    dsimp only
    simp only [Bool.false_eq_true, if_false, eq_self_iff_true, if_true]
    rw [hfile]
    dsimp only
    unfold stepVideos
    rw [hpv]
    dsimp only [List.set, List.nil_append]
  have hrun : process_channels api maxChannels (resumeWorld cid vs cell) =
      runLoop api maxChannels 1 0 0 (resumeWorld cid vs cell) [] := rfl
  rw [hrun]
  unfold runLoop
  dsimp only [resumeWorld, List.get?]
  rw [if_neg (by omega : ¬ maxChannels ≤ 0)]
  rw [hstep]
  dsimp only
  unfold runLoop
  dsimp only [List.nil_append]
  exact ⟨rfl, rfl, alGet_alSet_self _ _ _⟩

/-- C4, witness.  A concrete instance: one already-fetched video v1 and two
unfetched videos v2 v3; the re-run calls the detail endpoint exactly for v2
and v3. -/
theorem resume_skips_fetched_witness :
    (process_channels apiEcho 1 (resumeWorld "A"
        [{ VideoID := "v1", fetched_video := true },
         { VideoID := "v2", fetched_video := false },
         { VideoID := "v3", fetched_video := false }]
        { videos := [{ body := "v1" }]
          statistics := { body := "stats" } })).trace =
      [ApiCall.video "v2", ApiCall.video "v3"] := by
  have h := resume_skips_fetched apiEcho "A"
    [{ VideoID := "v1", fetched_video := true },
     { VideoID := "v2", fetched_video := false },
     { VideoID := "v3", fetched_video := false }]
    { videos := [{ body := "v1" }], statistics := { body := "stats" } }
    1 (by decide) (by decide)
  rw [h.2.1]
  rfl

/-- Replacing the entry a position holds keeps a lookup at that position. -/
theorem get?_set_self {α : Type} :
    ∀ (l : List α) (n : Nat) (a b : α), l.get? n = some b →
      (l.set n a).get? n = some a
  | _ :: _, 0, _, _, _ => rfl
  | x :: xs, n + 1, a, b, h => get?_set_self xs n a b h
  | [], n, a, b, h => by simp [List.get?] at h

/-- Replacing a roster entry by one with the same channel id keeps the id
list. -/
theorem map_set_same :
    ∀ (l : List ChannelInfo) (idx : Nat) {ch ch2 : ChannelInfo},
      l.get? idx = some ch → ch2.channelID = ch.channelID →
      (l.set idx ch2).map ChannelInfo.channelID =
        l.map ChannelInfo.channelID
  | [], idx, ch, ch2, h, _ => by simp [List.get?] at h
  | x :: xs, 0, ch, ch2, h, hid => by
      have hx := Option.some.inj h
      simp [List.set, hid, hx]
  | x :: xs, idx + 1, ch, ch2, h, hid => by
      simp only [List.set, List.map_cons]
      rw [map_set_same xs idx h hid]

/-- In a roster with pairwise distinct channel ids, a member carrying the id
of the entry at some position is that entry. -/
theorem roster_unique {w : World} (hnd : NodupRoster w) {idx : Nat}
    {ch : ChannelInfo} (h : w.roster.get? idx = some ch) {ch2 : ChannelInfo}
    (h2 : ch2 ∈ w.roster) (hid : ch2.channelID = ch.channelID) : ch2 = ch :=
  List.inj_on_of_nodup_map hnd h2 (List.get?_mem h) hid

/-- Setting an already-true statistics flag changes nothing. -/
theorem stats_flag_eta {ch : ChannelInfo} (h : ch.fetched_statistics = true) :
    ({ ch with fetched_statistics := true } : ChannelInfo) = ch := by
  cases ch
  simp_all

/-- A freshly written video list file has every flag false. -/
theorem write_list_flags {ids : List String} {e : VideoEntry}
    (h : e ∈ write_channel_video_list_to_file ids) : e.fetched_video = false := by
  obtain ⟨i, _, rfl⟩ := List.mem_map.mp h
  rfl

/-- How the per-video loop changes the dataset: cells of other channels are
untouched, the cell of the channel only grows its videos list, and when every
flag of the input list has its payload recorded, so does every flag of the
output list. -/
theorem processVideos_df_spec (api : Api) (cid : String) :
    ∀ (vs : List VideoEntry) (df : List (String × Cell)),
      (∀ c2, c2 ≠ cid →
        QGR.alGet (processVideos api cid df vs).df c2 = QGR.alGet df c2) ∧
      (∀ cell, QGR.alGet df cid = some cell →
        ∃ cell2, QGR.alGet (processVideos api cid df vs).df cid = some cell2 ∧
          ∀ x ∈ cell.videos, x ∈ cell2.videos) ∧
      ((∀ e ∈ vs, e.fetched_video = true →
          ∃ cell, QGR.alGet df cid = some cell ∧
            api.video e.VideoID ∈ cell.videos) →
        ∀ e ∈ (processVideos api cid df vs).vids, e.fetched_video = true →
          ∃ cell, QGR.alGet (processVideos api cid df vs).df cid = some cell ∧
            api.video e.VideoID ∈ cell.videos) := by
  intro vs
  induction vs with
  | nil =>
      intro df
      refine ⟨fun c2 _ => rfl, fun cell h => ⟨cell, h, fun x hx => hx⟩, ?_⟩
      intro _ e he
      simp [processVideos] at he
  | cons e rest ih =>
      intro df
      obtain ⟨vid, flag⟩ := e
      cases flag with
      | true =>
          simp only [processVideos, if_pos rfl]
          obtain ⟨ih1, ih2, ih3⟩ := ih df
          refine ⟨ih1, ih2, ?_⟩
          intro hx e2 he2 htrue
          rcases List.mem_cons.mp he2 with rfl | hmem
          · obtain ⟨cell, hcell, hmemv⟩ :=
              hx _ (List.mem_cons_self _ _) htrue
            obtain ⟨cell2, hcell2, hsub⟩ := ih2 cell hcell
            exact ⟨cell2, hcell2, hsub _ hmemv⟩
          · exact ih3 (fun e3 he3 => hx e3 (List.mem_cons_of_mem _ he3))
              e2 hmem htrue
      | false =>
          simp only [processVideos]
          rw [if_neg (by simp)]
          by_cases hquota : isQuotaError (api.video vid).error = true
          · rw [if_pos hquota]
            refine ⟨fun c2 _ => rfl,
              fun cell h => ⟨cell, h, fun x hx => hx⟩, ?_⟩
            intro hx e2 he2 htrue
            rcases List.mem_cons.mp he2 with rfl | hmem
            · cases htrue
            · exact hx e2 (List.mem_cons_of_mem _ hmem) htrue
          · rw [if_neg hquota]
            cases hcell0 : QGR.alGet df cid with
            | none =>
                dsimp only
                refine ⟨fun c2 _ => rfl, fun cell h => absurd h (by simp), ?_⟩
                intro hx e2 he2 htrue
                rcases List.mem_cons.mp he2 with rfl | hmem
                · cases htrue
                · obtain ⟨cell, hcc, _⟩ :=
                    hx e2 (List.mem_cons_of_mem _ hmem) htrue
                  cases hcc
            | some cell0 =>
                dsimp only
                obtain ⟨ih1, ih2, ih3⟩ := ih (QGR.alSet df cid
                  { cell0 with videos := (cell0.videos ++ [api.video vid]) })
                have hgrow : QGR.alGet (QGR.alSet df cid
                    { cell0 with videos := (cell0.videos ++ [api.video vid]) }) cid =
                    some { cell0 with videos := (cell0.videos ++ [api.video vid]) } :=
                  alGet_alSet_self _ _ _
                refine ⟨?_, ?_, ?_⟩
                · intro c2 hc2
                  rw [ih1 c2 hc2, alGet_alSet_ne _ _ hc2]
                · intro cell h
                  obtain rfl : cell0 = cell := Option.some.inj h
                  obtain ⟨cell2, hcell2, hsub⟩ := ih2 _ hgrow
                  exact ⟨cell2, hcell2, fun x hx =>
                    hsub x (List.mem_append_left _ hx)⟩
                · intro hx e2 he2 htrue
                  rcases List.mem_cons.mp he2 with rfl | hmem
                  · obtain ⟨cell2, hcell2, hsub⟩ := ih2 _ hgrow
                    refine ⟨cell2, hcell2, hsub _ ?_⟩
                    exact List.mem_append_right _ (List.mem_singleton.mpr rfl)
                  · refine ih3 ?_ e2 hmem htrue
                    intro e3 he3 htrue3
                    obtain ⟨cell, hcell, hmemv⟩ :=
                      hx e3 (List.mem_cons_of_mem _ he3) htrue3
                    obtain rfl : cell0 = cell := Option.some.inj hcell
                    exact ⟨_, hgrow, List.mem_append_left _ hmemv⟩

/-- The video phase of a channel whose statistics flag is true preserves the
no-corruption invariant and the roster ids. -/
theorem stepVideos_inv (api : Api) (w : World) (idx : Nat) (ch1 : ChannelInfo)
    (tr : List ApiCall) (vlist : List VideoEntry)
    (hidx : w.roster.get? idx = some ch1)
    (hnd : NodupRoster w)
    (hstats : ch1.fetched_statistics = true)
    (hinv : HarvestInv api w)
    (hcdata : ∀ e ∈ vlist, e.fetched_video = true →
      ∃ cell, QGR.alGet w.df ch1.channelID = some cell ∧
        api.video e.VideoID ∈ cell.videos) :
    HarvestInv api (stepVideos api w idx ch1 tr vlist).world ∧
    (stepVideos api w idx ch1 tr vlist).world.roster.map ChannelInfo.channelID =
      w.roster.map ChannelInfo.channelID := by
  obtain ⟨hrs, hvd, hvf⟩ := hinv
  obtain ⟨hdf1, hdf2, hdf3⟩ :=
    processVideos_df_spec api ch1.channelID vlist w.df
  have hvids := hdf3 hcdata
  have key : ∀ roster2 : List ChannelInfo,
      (∀ ch2 ∈ roster2, ch2 ∈ w.roster ∨
        (ch2.channelID = ch1.channelID ∧ ch2.fetched_statistics = true)) →
      HarvestInv api
        { df := (processVideos api ch1.channelID w.df vlist).df
          roster := roster2
          videoFiles := QGR.alSet w.videoFiles ch1.channelID
            (processVideos api ch1.channelID w.df vlist).vids } := by
    intro roster2 hmem
    refine ⟨?_, ?_, ?_⟩
    · intro ch2 h2 htrue
      rcases hmem ch2 h2 with hold | ⟨hid, _⟩
      · by_cases hc : ch2.channelID = ch1.channelID
        · have h3 := hrs ch2 hold htrue
          rw [hc] at h3 ⊢
          obtain ⟨cell, hcell⟩ := Option.isSome_iff_exists.mp h3
          obtain ⟨cell2, hcell2, _⟩ := hdf2 cell hcell
          simp only [hcell2, Option.isSome_some]
        · simp only [hdf1 ch2.channelID hc]
          exact hrs ch2 hold htrue
      · have h3 := hrs ch1 (List.get?_mem hidx) hstats
        rw [hid]
        obtain ⟨cell, hcell⟩ := Option.isSome_iff_exists.mp h3
        obtain ⟨cell2, hcell2, _⟩ := hdf2 cell hcell
        simp only [hcell2, Option.isSome_some]
    · intro c2 vs2 hfile e he htrue
      by_cases hc : c2 = ch1.channelID
      · subst hc
        rw [alGet_alSet_self] at hfile
        obtain rfl := Option.some.inj hfile
        exact hvids e he htrue
      · rw [alGet_alSet_ne _ _ hc] at hfile
        obtain ⟨cell, hcell, hmemv⟩ := hvd c2 vs2 hfile e he htrue
        refine ⟨cell, ?_, hmemv⟩
        rw [hdf1 c2 hc]
        exact hcell
    · intro c2 vs2 hfile e he htrue ch2 h2 hid2
      rcases hmem ch2 h2 with hold | ⟨_, hst⟩
      · by_cases hc : c2 = ch1.channelID
        · subst hc
          have heq := roster_unique hnd hidx hold hid2
          rw [heq]
          exact hstats
        · rw [alGet_alSet_ne _ _ hc] at hfile
          exact hvf c2 vs2 hfile e he htrue ch2 hold hid2
      · exact hst
  cases hhalt : (processVideos api ch1.channelID w.df vlist).halt with
  | some o =>
      constructor
      · simp only [stepVideos, hhalt]
        exact key w.roster (fun ch2 h2 => Or.inl h2)
      · simp [stepVideos, hhalt]
  | none =>
      constructor
      · simp only [stepVideos, hhalt]
        refine key (w.roster.set idx { ch1 with fetched_videos := true }) ?_
        intro ch2 h2
        rcases List.mem_or_eq_of_mem_set h2 with hold | rfl
        · exact Or.inl hold
        · exact Or.inr ⟨rfl, hstats⟩
      · simp only [stepVideos, hhalt]
        exact map_set_same w.roster idx hidx rfl

/-- The statistics phase preserves the invariant, the roster ids, the entry at
the current index (now with the flag set) and the video files. -/
theorem statsPhase_inv (api : Api) (w : World) (idx : Nat) (ch : ChannelInfo)
    (hidx : w.roster.get? idx = some ch)
    (hinv : HarvestInv api w) :
    HarvestInv api (statsPhase api w idx ch).1 ∧
    (statsPhase api w idx ch).1.roster.map ChannelInfo.channelID =
      w.roster.map ChannelInfo.channelID ∧
    (statsPhase api w idx ch).1.roster.get? idx =
      some { ch with fetched_statistics := true } ∧
    (statsPhase api w idx ch).1.videoFiles = w.videoFiles := by
  obtain ⟨hrs, hvd, hvf⟩ := hinv
  by_cases hs : ch.fetched_statistics = true
  · simp only [statsPhase, if_pos hs]
    refine ⟨⟨hrs, hvd, hvf⟩, by trivial, ?_, by trivial⟩
    rw [stats_flag_eta hs]
    exact hidx
  · simp only [statsPhase, if_neg hs]
    refine ⟨⟨?_, ?_, ?_⟩, map_set_same w.roster idx hidx rfl,
      get?_set_self _ _ _ _ hidx, by trivial⟩
    · intro ch2 h2 htrue
      rcases List.mem_or_eq_of_mem_set h2 with hold | rfl
      · by_cases hc : ch2.channelID = ch.channelID
        · rw [hc, alGet_alSet_self]
          rfl
        · rw [alGet_alSet_ne _ _ hc]
          exact hrs ch2 hold htrue
      · rw [alGet_alSet_self]
        rfl
    · intro c2 vs2 hfile e he htrue
      by_cases hc : c2 = ch.channelID
      · subst hc
        exact absurd (hvf _ vs2 hfile e he htrue ch (List.get?_mem hidx) rfl) hs
      · rw [alGet_alSet_ne _ _ hc]
        exact hvd c2 vs2 hfile e he htrue
    · intro c2 vs2 hfile e he htrue ch2 h2 hid2
      rcases List.mem_or_eq_of_mem_set h2 with hold | rfl
      · exact hvf c2 vs2 hfile e he htrue ch2 hold hid2
      · rfl

/-- The video phase preserves the invariant and the roster ids. -/
theorem videoPhase_inv (api : Api) (w : World) (idx : Nat) (ch1 : ChannelInfo)
    (tr : List ApiCall)
    (hidx : w.roster.get? idx = some ch1)
    (hnd : NodupRoster w)
    (hstats : ch1.fetched_statistics = true)
    (hinv : HarvestInv api w) :
    HarvestInv api (videoPhase api w idx ch1 tr).world ∧
    (videoPhase api w idx ch1 tr).world.roster.map ChannelInfo.channelID =
      w.roster.map ChannelInfo.channelID := by
  by_cases hv : ch1.fetched_videos = true
  · simp only [videoPhase, if_pos hv]
    exact ⟨hinv, by trivial⟩
  · simp only [videoPhase, if_neg hv]
    cases hfile : QGR.alGet w.videoFiles ch1.channelID with
    | some vlist =>
        have hcdata := fun e he htrue =>
          hinv.2.1 ch1.channelID vlist hfile e he htrue
        exact stepVideos_inv api w idx ch1 tr vlist hidx hnd hstats hinv hcdata
    | none =>
        cases hlr : (get_channel_videos_list api ch1.channelID).2 with
        | quota => exact ⟨hinv, by trivial⟩
        | noResponse => exact ⟨hinv, by trivial⟩
        | noItems => exact ⟨hinv, by trivial⟩
        | ok ids =>
            have hinv2 : HarvestInv api
                { w with videoFiles := (QGR.alSet w.videoFiles ch1.channelID
                    (write_channel_video_list_to_file ids)) } := by
              obtain ⟨hrs, hvd, hvf⟩ := hinv
              refine ⟨hrs, ?_, ?_⟩
              · intro c2 vs2 hfile2 e he htrue
                by_cases hc : c2 = ch1.channelID
                · subst hc
                  rw [alGet_alSet_self] at hfile2
                  obtain rfl := Option.some.inj hfile2
                  exact absurd htrue (by simp [write_list_flags he])
                · rw [alGet_alSet_ne _ _ hc] at hfile2
                  exact hvd c2 vs2 hfile2 e he htrue
              · intro c2 vs2 hfile2 e he htrue ch2 h2 hid2
                by_cases hc : c2 = ch1.channelID
                · subst hc
                  rw [alGet_alSet_self] at hfile2
                  obtain rfl := Option.some.inj hfile2
                  exact absurd htrue (by simp [write_list_flags he])
                · rw [alGet_alSet_ne _ _ hc] at hfile2
                  exact hvf c2 vs2 hfile2 e he htrue ch2 h2 hid2
            have hcdata2 : ∀ e ∈ write_channel_video_list_to_file ids,
                e.fetched_video = true →
                ∃ cell, QGR.alGet w.df ch1.channelID = some cell ∧
                  api.video e.VideoID ∈ cell.videos := by
              intro e he htrue
              exact absurd htrue (by simp [write_list_flags he])
            exact stepVideos_inv api _ idx ch1 _
              (write_channel_video_list_to_file ids) hidx hnd hstats hinv2
              hcdata2

/-- One channel iteration preserves the invariant and the roster ids. -/
theorem stepChannel_inv (api : Api) (w : World) (idx : Nat) (ch : ChannelInfo)
    (hidx : w.roster.get? idx = some ch)
    (hnd : NodupRoster w)
    (hinv : HarvestInv api w) :
    HarvestInv api (stepChannel api w idx ch).world ∧
    (stepChannel api w idx ch).world.roster.map ChannelInfo.channelID =
      w.roster.map ChannelInfo.channelID := by
  obtain ⟨hinv1, hids1, hidx1, _⟩ := statsPhase_inv api w idx ch hidx hinv
  have hnd1 : NodupRoster (statsPhase api w idx ch).1 := by
    unfold NodupRoster
    rw [hids1]
    exact hnd
  obtain ⟨hinv2, hids2⟩ := videoPhase_inv api (statsPhase api w idx ch).1 idx
    { ch with fetched_statistics := true } (statsPhase api w idx ch).2
    hidx1 hnd1 rfl hinv1
  exact ⟨hinv2, by rw [stepChannel]; rw [hids2, hids1]⟩

/-- The channel loop preserves the invariant. -/
theorem runLoop_inv (api : Api) (maxChannels : Nat) :
    ∀ (fuel idx p : Nat) (w : World) (tr : List ApiCall),
      NodupRoster w → HarvestInv api w →
      HarvestInv api (runLoop api maxChannels fuel idx p w tr).world := by
  intro fuel
  induction fuel with
  | zero => intro idx p w tr _ hinv; exact hinv
  | succ fuel ih =>
      intro idx p w tr hnd hinv
      unfold runLoop
      cases hget : w.roster.get? idx with
      | none => exact hinv
      | some ch =>
          by_cases hbreak : maxChannels ≤ p
          · simp only [if_pos hbreak]
            exact hinv
          · simp only [if_neg hbreak]
            obtain ⟨hinvS, hidsS⟩ := stepChannel_inv api w idx ch hget hnd hinv
            cases hhalt : (stepChannel api w idx ch).halt with
            | some o => exact hinvS
            | none =>
                refine ih (idx + 1) (p + 1) _ _ ?_ hinvS
                unfold NodupRoster
                rw [hidsS]
                exact hnd

/-- C1, counterexample.  The claim states that whenever a remote API call
reports quota exhaustion (HTTP 403 with a message containing quota) the
harvest loop halts immediately, with no further processing.  The statistics
endpoint is never checked for errors: on a fresh channel whose statistics
response is exactly such a quota envelope, the run stores the error payload as
statistics data, continues with the video-list call, and completes normally —
a second remote call happens after the quota report and the outcome is ok. -/
theorem stats_quota_not_fatal :
    isQuotaError (apiQuotaStats.stats "A").error = true ∧
    (process_channels apiQuotaStats 5 freshWorld).outcome = Outcome.ok ∧
    (process_channels apiQuotaStats 5 freshWorld).trace =
      [ApiCall.stats "A", ApiCall.listPage "A"] := by
  refine ⟨by decide, rfl, rfl⟩

/-- C1, amended.  Quota exhaustion reported by the video-list or video-detail
calls aborts the run at that point (error propagation: the loop body is never
resumed, and every roster entry past the aborting index is untouched), and on
a roster without duplicate channel ids every run — aborted or not — preserves
the persisted-state invariant: no channel is left with fetched_statistics true
while its dataset cell is absent, and no video is left with fetched_video true
while its payload is absent from its channel cell.  A quota error returned by
the statistics call, however, is not detected: the error payload is stored as
statistics data and the run continues. -/
theorem quota_run_preserves_state (api : Api) (maxChannels : Nat) (w : World)
    (hnd : NodupRoster w) (hinv : HarvestInv api w) :
    HarvestInv api (process_channels api maxChannels w).world ∧
    (∀ j, (process_channels api maxChannels w).finalIdx < j →
      (process_channels api maxChannels w).world.roster.get? j =
        w.roster.get? j) :=
  ⟨runLoop_inv api maxChannels w.roster.length 0 0 w [] hnd hinv,
   fun j hj => runLoop_untouched api maxChannels w.roster.length 0 0 w [] j hj⟩

/-- C1, witness.  On a fresh one-channel roster the invariant holds vacuously
and is preserved by a full run against the trivial remote API. -/
theorem quota_run_preserves_state_witness :
    HarvestInv apiTrivial (process_channels apiTrivial 1 freshWorld).world := by
  have hnd : NodupRoster freshWorld := by
    unfold NodupRoster freshWorld
    decide
  have hinv : HarvestInv apiTrivial freshWorld := by
    refine ⟨?_, ?_, ?_⟩
    · intro ch hch htrue
      simp only [freshWorld, List.mem_singleton] at hch
      subst hch
      cases htrue
    · intro cid vs h
      exact absurd h (by simp [QGR.alGet, freshWorld])
    · intro cid vs h
      exact absurd h (by simp [QGR.alGet, freshWorld])
  exact (quota_run_preserves_state apiTrivial 1 freshWorld hnd hinv).1

end YT
